import Mathlib

/-
Verification development for the project/workspace core (`xray_core`):
shared buffer management with de-duplication across concurrent opens
(`project.rs`: `BufferWeakSet`, `LocalProject::open_path`), the two-phase
cancellable fuzzy path search (`PathSearch`), and the CRDT register model
(`repository.rs`: `Register`).

The embedding is shallow: Rust structures become Lean structures, the
cooperative single-threaded concurrency of `open_path` becomes an explicit
interleaving machine over the two suspension points, and the search loops
become fuel-indexed recursive functions.  The external fuzzy matcher/scorer
is out of scope for the source and is modelled as an abstract oracle over
the stack of pushed name segments.
-/

namespace XrayCore

/-! ### Buffer registry (`BufferWeakSet`, project.rs lines 130-172)

A registry entry is a pair `(BufferId, Weak<RefCell<Buffer>>)`.  We model the
weak reference by an `alive` flag (whether `upgrade()` succeeds) together
with the buffer's associated file identity (`buffer.borrow().file_id()`,
an `Option` since a buffer may have no file bound). -/

structure RegistryEntry where
  bufId : Nat
  fileId : Option Nat
  alive : Bool
deriving DecidableEq, Repr

/-- Model of `BufferWeakSet::find_by_file_id` (project.rs lines 158-171): walks the
entries with `retain`, dropping every entry whose weak reference no longer
upgrades, and remembers the buffer whose file identity equals the argument
(the closure overwrites `found_buffer` on every hit, so the *last* live
match wins).  Returns the retained registry and the found buffer id. -/
def findByFileId : List RegistryEntry → Nat → List RegistryEntry × Option Nat
  | [], _ => ([], none)
  | e :: rest, fid =>
    let r := findByFileId rest fid
    if e.alive then
      (e :: r.1,
        if r.2.isSome then r.2
        else if e.fileId = some fid then some e.bufId else none)
    else r

/-! ### `LocalProject::open_path` as a two-fiber interleaving machine
(project.rs lines 212-249)

The scheduling model is single-threaded cooperative: the only suspension
points of `open_path` are the file-provider `open` call and the file `read`
call.  Everything between two suspension points is atomic.  After the
provider open resolves, a fiber atomically consults the registry by file
identity (`find_by_file_id`) and either returns the found buffer or starts
the read; after the read resolves it atomically re-checks the registry and
either returns the winner's buffer (discarding its own content) or
allocates a fresh buffer id, inserts, and returns.  Both fibers open the
same `(repo, relative_path)`, hence resolve to the same file identity. -/

inductive FiberState where
  | start
  | reading
  | done (bufId : Nat)
deriving DecidableEq, Repr

structure OpenRace where
  reg : List RegistryEntry
  nextBufId : Nat
  f1 : FiberState
  f2 : FiberState
deriving DecidableEq, Repr

/-- One atomic step of a fiber running `open_path`'s continuation for file
identity `fid` (project.rs lines 223-243).  From `start` (the provider open
just resolved) it performs the first registry check; from `reading` (the
read just resolved) it performs the re-check and, on a miss, allocates the
next buffer id and inserts `(id, fid)` into the registry
(`BufferWeakSet::insert` pushes at the end, lines 137-141). -/
def fiberResume (fid : Nat) (reg : List RegistryEntry) (nextId : Nat) :
    FiberState → List RegistryEntry × Nat × FiberState
  | .start =>
    let r := findByFileId reg fid
    match r.2 with
    | some b => (r.1, nextId, .done b)
    | none => (r.1, nextId, .reading)
  | .reading =>
    let r := findByFileId reg fid
    match r.2 with
    | some b => (r.1, nextId, .done b)
    | none => (r.1 ++ [⟨nextId, some fid, true⟩], nextId + 1, .done nextId)
  | .done b => (reg, nextId, .done b)

/-- Advance one of the two fibers (`true` = first fiber). -/
def raceStep (fid : Nat) (s : OpenRace) (first : Bool) : OpenRace :=
  if first then
    let r := fiberResume fid s.reg s.nextBufId s.f1
    { s with reg := r.1, nextBufId := r.2.1, f1 := r.2.2 }
  else
    let r := fiberResume fid s.reg s.nextBufId s.f2
    { s with reg := r.1, nextBufId := r.2.1, f2 := r.2.2 }

/-- Run the machine under a schedule (an arbitrary interleaving of the two
fibers' suspension points). -/
def raceRun (fid : Nat) : List Bool → OpenRace → OpenRace
  | [], s => s
  | b :: rest, s => raceRun fid rest (raceStep fid s b)

/-- Number of live registry entries bound to file identity `fid`.  The
registry invariant is that at most one live buffer exists per file
identity. -/
def liveFidCount (reg : List RegistryEntry) (fid : Nat) : Nat :=
  (reg.filter (fun e => e.alive && e.fileId = some fid)).length

/-- Predicate: `b` is the id of a live registry buffer bound to `fid`. -/
def liveFidMem (reg : List RegistryEntry) (fid : Nat) (b : Nat) : Prop :=
  ∃ e ∈ reg, e.alive = true ∧ e.fileId = some fid ∧ e.bufId = b

/-- Invariant of the two-fiber `open_path` interleaving machine: at most
one live registry entry is bound to the file identity, and any finished
fiber returned the id of such an entry. -/
def RaceInv (fid : Nat) (s : OpenRace) : Prop :=
  liveFidCount s.reg fid ≤ 1 ∧
    (∀ b, s.f1 = .done b → liveFidMem s.reg fid b) ∧
    (∀ b, s.f2 = .done b → liveFidMem s.reg fid b)

/-! ### `LocalProject::open_path`, single-fiber denotation with an effect
trace (project.rs lines 198-249), used for the error-handling claims. -/

/-- The `Error` enum (project.rs lines 121-128). -/
inductive PError where
  | bufferNotFound
  | treeNotFound
  | ioError (msg : String)
  | rpcError
  | unexpectedResponse
deriving DecidableEq, Repr

/-- Externally observable effects of one `open_path` call: the
file-provider open, a registry consultation, the file read, and a buffer-id
allocation. -/
inductive OpenEffect where
  | fpOpen (abs : List String)
  | regLookup
  | fileRead
  | allocId
deriving DecidableEq, Repr

/-- The file provider (an external collaborator): opening an absolute path
yields a file identity or an io error; reading a file yields its content. -/
structure FileProviderModel where
  openFile : List String → Except String Nat
  readFile : Nat → Except String (List Char)

structure LocalProjectModel where
  repos : List (Nat × List String)
  nextBufferId : Nat
  buffers : List RegistryEntry
deriving Repr

/-- Model of `LocalProject::resolve_path` (project.rs lines 198-208):
`repos.get(&repo_id).map(|repo| repo.path().clone().push_path(rel))`. -/
def resolvePath (proj : LocalProjectModel) (repoId : Nat) (rel : List String) :
    Option (List String) :=
  (proj.repos.lookup repoId).map (fun root => root ++ rel)

/-- Model of `LocalProject::open_path` (project.rs lines 212-249) run as a single
fiber to completion, returning the result (the buffer id standing for the
returned strong reference), the trace of effects, and the updated project
state.  If the repo id is unknown the future is the immediate
`Err(Error::TreeNotFound)`. -/
def openPathSingle (fp : FileProviderModel) (proj : LocalProjectModel)
    (repoId : Nat) (rel : List String) :
    Except PError Nat × List OpenEffect × LocalProjectModel :=
  match resolvePath proj repoId rel with
  | none => (.error .treeNotFound, [], proj)
  | some abs =>
    match fp.openFile abs with
    | .error msg => (.error (.ioError msg), [.fpOpen abs], proj)
    | .ok fid =>
      let r := findByFileId proj.buffers fid
      match r.2 with
      | some b => (.ok b, [.fpOpen abs, .regLookup], { proj with buffers := r.1 })
      | none =>
        match fp.readFile fid with
        | .error msg =>
          (.error (.ioError msg), [.fpOpen abs, .regLookup, .fileRead],
            { proj with buffers := r.1 })
        | .ok _content =>
          let r2 := findByFileId r.1 fid
          match r2.2 with
          | some b =>
            (.ok b, [.fpOpen abs, .regLookup, .fileRead, .regLookup],
              { proj with buffers := r2.1 })
          | none =>
            (.ok proj.nextBufferId,
              [.fpOpen abs, .regLookup, .fileRead, .regLookup, .allocId],
              { proj with
                  buffers := r2.1 ++ [⟨proj.nextBufferId, some fid, true⟩],
                  nextBufferId := proj.nextBufferId + 1 })

/-! ### Path search engine (`PathSearch`, project.rs lines 84-710)

Tree entries (`fs::Entry`, an external collaborator): stable entry
identity, name, ignored flag, directory flag, lazily enumerable
children. -/

inductive FsEntry where
  | mk (eid : Nat) (name : List Char) (ignored : Bool) (dir : Bool)
      (children : List FsEntry)

def FsEntry.eid : FsEntry → Nat
  | .mk i _ _ _ _ => i

def FsEntry.name : FsEntry → List Char
  | .mk _ n _ _ _ => n

def FsEntry.ignored : FsEntry → Bool
  | .mk _ _ ig _ _ => ig

def FsEntry.isDir : FsEntry → Bool
  | .mk _ _ _ d _ => d

def FsEntry.children : FsEntry → List FsEntry
  | .mk _ _ _ _ cs => cs

instance : Inhabited FsEntry := ⟨.mk 0 [] false false []⟩

/-- All entries of a forest: the roots and, recursively, every
descendant. -/
def allEntriesList : List FsEntry → List FsEntry
  | [] => []
  | .mk i n ig d cs :: rest =>
    .mk i n ig d cs :: (allEntriesList cs ++ allEntriesList rest)

/-- The fuzzy matcher/scorer (external collaborator, out of scope for the
source): a stack-of-segments structure over a needle whose `push`/`pop`
lifecycle is aligned with the traversal stack.  We model it by pure
functions of the current segment stack (bottom to top): `isMatch` is the
boolean returned by `Matcher::push`, and `score` is the score and the
match-position buffer written by `Scorer::push`. -/
structure FuzzyOracle where
  isMatch : List (List Char) → Bool
  score : List (List Char) → Nat × List Nat

/-- Model of `MatchMarker` (project.rs lines 115-119). -/
inductive MatchMarker where
  | containsMatch
  | isMatch
deriving DecidableEq, Repr

/-- Model of `StackEntry` (project.rs lines 109-113). -/
structure StackEntry where
  children : List FsEntry
  childIndex : Nat
  foundMatch : Bool

instance : Inhabited StackEntry := ⟨[], 0, false⟩

/-- The name of a frame's current child, `entry.children[entry.child_index]`. -/
def StackEntry.curName (fr : StackEntry) : List Char :=
  (fr.children.getD fr.childIndex default).name

/-- The segments currently pushed on the matcher/scorer: one name per
traversal frame, bottom to top.  The traversal stack is modelled head =
top, so the bottom-to-top order is the reverse. -/
def stackNames (stack : List StackEntry) : List (List Char) :=
  stack.reverse.map StackEntry.curName

/-- Model of `PathSearchResult` (project.rs lines 100-107).  `fuzzy::Score` belongs
to the out-of-scope fuzzy crate and is modelled as a natural number; the
relative path is a list of components and the display path a character
sequence. -/
structure PathSearchResult where
  score : Nat
  positions : List Nat
  repoId : Nat
  relativePath : List (List Char)
  displayPath : List Char
deriving DecidableEq, Repr

/-- Model of `PathSearchStatus` (project.rs lines 94-98). -/
inductive PathSearchStatus where
  | Pending
  | Ready (results : List PathSearchResult)
deriving DecidableEq, Repr

/-- The fields of `PathSearch` that determine a poll (project.rs lines
84-92): the snapshot of repo ids and roots, the needle, `max_results`,
`include_ignored`, and whether the weak status cell still has observers
(`self.updates.has_observers()`; the observer cannot be dropped in the
middle of a poll because the model is single-threaded cooperative). -/
structure SearchState where
  repoIds : List Nat
  roots : List FsEntry
  needle : List Char
  maxResults : Nat
  includeIgnored : Bool
  hasObservers : Bool

/-- Initial children of both walks (project.rs lines 490-494 and 556-560):
with exactly one root, that root's children; otherwise the roots
themselves. -/
def initialChildren : List FsEntry → List FsEntry
  | [r] => r.children
  | rs => rs

/-! #### Phase 1 — find matches (project.rs lines 485-544) -/

structure FMLoop where
  results : List (Nat × MatchMarker)
  steps : Nat
  iters : Nat
  children : List FsEntry
  childIndex : Nat
  foundMatch : Bool
  stack : List StackEntry

/-- Outcome of the phase-1 loop; `iters` is the number of loop iterations
executed (each iteration performs exactly one `check_cancellation` call),
recorded so that the periodic-cancellation contract can be stated. -/
inductive FMResult where
  | cancelled (iters : Nat)
  | done (markers : List (Nat × MatchMarker)) (iters : Nat)
deriving DecidableEq, Repr

/-- The `find_matches` loop (project.rs lines 498-541), fuel-indexed.
Each iteration starts with `check_cancellation(…, 10000)` (lines 664-679):
the step counter is incremented and, when it reaches 10000, the walk is
cancelled unless the status cell still has observers (in which case the
counter resets).  The marker map insert is modelled by prepending (lookup
takes the first hit, matching `HashMap::insert` overwrite semantics). -/
def findMatchesLoop (oracle : FuzzyOracle) (hasObservers : Bool) :
    Nat → FMLoop → Option FMResult
  | 0, _ => none
  | fuel + 1, st =>
    if st.steps + 1 = 10000 ∧ hasObservers = false then
      some (.cancelled (st.iters + 1))
    else
      let st := { st with
        steps := if st.steps + 1 = 10000 then 0 else st.steps + 1,
        iters := st.iters + 1 }
      if st.childIndex < st.children.length then
        let child := st.children.getD st.childIndex default
        if child.ignored then
          findMatchesLoop oracle hasObservers fuel
            { st with childIndex := st.childIndex + 1 }
        else if oracle.isMatch (stackNames st.stack ++ [child.name]) then
          findMatchesLoop oracle hasObservers fuel
            { st with
                results := (child.eid, MatchMarker.isMatch) :: st.results,
                foundMatch := true,
                childIndex := st.childIndex + 1 }
        else if child.isDir then
          findMatchesLoop oracle hasObservers fuel
            { st with
                stack := ⟨st.children, st.childIndex, st.foundMatch⟩ :: st.stack,
                children := child.children,
                childIndex := 0,
                foundMatch := false }
        else
          findMatchesLoop oracle hasObservers fuel
            { st with childIndex := st.childIndex + 1 }
      else
        match st.stack with
        | fr :: stackRest =>
          if st.foundMatch then
            findMatchesLoop oracle hasObservers fuel
              { st with
                  results :=
                    ((fr.children.getD fr.childIndex default).eid,
                      MatchMarker.containsMatch) :: st.results,
                  children := fr.children,
                  childIndex := fr.childIndex + 1,
                  stack := stackRest }
          else
            findMatchesLoop oracle hasObservers fuel
              { st with
                  foundMatch := fr.foundMatch,
                  children := fr.children,
                  childIndex := fr.childIndex + 1,
                  stack := stackRest }
        | [] => some (.done st.results st.iters)

/-- Model of `PathSearch::find_matches` (project.rs lines 485-544): the walk starts
with an empty traversal stack (the search is constructed with
`stack: Vec::new()`, line 286) and the step counter at 0. -/
def findMatches (oracle : FuzzyOracle) (s : SearchState) (fuel : Nat) :
    Option FMResult :=
  findMatchesLoop oracle s.hasObservers fuel
    { results := [], steps := 0, iters := 0,
      children := initialChildren s.roots, childIndex := 0,
      foundMatch := false, stack := [] }

/-! #### Phase 2 — rank matches (project.rs lines 546-662)

The top-K structure is `BinaryHeap<PathSearchResult>` whose `Ord`
(lines 698-710) reverses the score comparison, so the heap's greatest
element — what `peek`/`pop` operate on — is a *worst-score* entry.  The
heap is modelled as the list of its elements: `peek().map(|r| r.score)`
is the minimum score, `pop` removes one worst element, and
`into_sorted_vec` (ascending in the reversed order) sorts descending by
score. -/

/-- Score of `BinaryHeap::peek` under the reversed `Ord`: the minimum
score held. -/
def heapPeekScore : List PathSearchResult → Option Nat
  | [] => none
  | r :: rest =>
    match heapPeekScore rest with
    | none => some r.score
    | some w => some (min r.score w)

/-- Model of `BinaryHeap::pop` under the reversed `Ord`: removes one element with
the minimum score. -/
def heapPopWorst : List PathSearchResult → List PathSearchResult
  | [] => []
  | r :: rest =>
    match heapPeekScore rest with
    | none => []
    | some w => if r.score ≤ w then rest else r :: heapPopWorst rest

/-- Descending-score ordering on results: the public result order. -/
def resultLE (a b : PathSearchResult) : Prop := b.score ≤ a.score

instance : DecidableRel resultLE := fun a b => Nat.decLe b.score a.score

instance : IsTotal PathSearchResult resultLE :=
  ⟨fun a b => Nat.le_total b.score a.score⟩

instance : IsTrans PathSearchResult resultLE :=
  ⟨fun _ _ _ h h' => Nat.le_trans h' h⟩

/-- Model of `BinaryHeap::into_sorted_vec`: the heap's elements in ascending order
of the reversed `Ord`, i.e. descending by score. -/
def intoSortedVec (h : List PathSearchResult) : List PathSearchResult :=
  h.insertionSort resultLE

/-- The admission check of the rank phase (project.rs lines 614-616):
`results.len() < self.max_results || score > results.peek().map(|r| r.score).unwrap()`.
`||` short-circuits, so the `unwrap` is only evaluated when the heap is not
under capacity; `none` models the `unwrap` panic on an empty heap. -/
def rankAdmit (maxResults : Nat) (heap : List PathSearchResult) (score : Nat) :
    Option Bool :=
  if heap.length < maxResults then some true
  else
    match heapPeekScore heap with
    | none => none
    | some w => some (decide (w < score))

/-- Directory handling of the rank phase (project.rs lines 572-593):
whether to descend into a directory and whether the subtree counts as
matched, from the inherited `found_match` flag and the marker-map entry. -/
def rankDescend (foundMatch : Bool) (m : Option MatchMarker) : Bool × Bool :=
  if foundMatch then (true, true)
  else
    match m with
    | some .isMatch => (true, true)
    | some .containsMatch => (true, false)
    | none => (false, false)

structure RKLoop where
  results : List PathSearchResult
  steps : Nat
  iters : Nat
  children : List FsEntry
  childIndex : Nat
  foundMatch : Bool
  stack : List StackEntry

/-- Outcome of the phase-2 loop (`iters` as in `FMResult`); `panicked`
models the `unwrap` panic of the admission check. -/
inductive RKResult where
  | cancelled (iters : Nat)
  | panicked (iters : Nat)
  | done (results : List PathSearchResult) (iters : Nat)
deriving DecidableEq, Repr

/-- The `rank_matches` loop (project.rs lines 564-659), fuel-indexed.
Each iteration starts with `check_cancellation(…, 1000)`.  Ignored entries
are skipped only when `include_ignored` is false; directories descend
according to the marker map; files are scored when inside a matched
subtree or marked, then admitted to the top-K heap. -/
def rankMatchesLoop (oracle : FuzzyOracle) (s : SearchState)
    (markers : List (Nat × MatchMarker)) :
    Nat → RKLoop → Option RKResult
  | 0, _ => none
  | fuel + 1, st =>
    if st.steps + 1 = 1000 ∧ s.hasObservers = false then
      some (.cancelled (st.iters + 1))
    else
      let st := { st with
        steps := if st.steps + 1 = 1000 then 0 else st.steps + 1,
        iters := st.iters + 1 }
      if st.childIndex < st.children.length then
        let child := st.children.getD st.childIndex default
        if child.ignored && !s.includeIgnored then
          rankMatchesLoop oracle s markers fuel
            { st with childIndex := st.childIndex + 1 }
        else if child.isDir then
          let dm := rankDescend st.foundMatch (markers.lookup child.eid)
          if dm.1 then
            rankMatchesLoop oracle s markers fuel
              { st with
                  stack := ⟨st.children, st.childIndex, st.foundMatch⟩ :: st.stack,
                  foundMatch := dm.2,
                  children := child.children,
                  childIndex := 0 }
          else
            rankMatchesLoop oracle s markers fuel
              { st with childIndex := st.childIndex + 1 }
        else
          if st.foundMatch || (markers.lookup child.eid).isSome then
            let sp := oracle.score (stackNames st.stack ++ [child.name])
            match rankAdmit s.maxResults st.results sp.1 with
            | none => some (.panicked st.iters)
            | some false =>
              rankMatchesLoop oracle s markers fuel
                { st with childIndex := st.childIndex + 1 }
            | some true =>
              let below := st.stack.reverse
              let repoId :=
                if s.roots.length = 1 then s.repoIds.getD 0 0
                else s.repoIds.getD (below.getD 0 default).childIndex 0
              let relativePath :=
                ((if s.roots.length = 1 then below else below.drop 1).map
                  StackEntry.curName) ++ [child.name]
              let displayPath := (below.map StackEntry.curName).flatten ++ child.name
              let heap1 :=
                if st.results.length = s.maxResults then heapPopWorst st.results
                else st.results
              rankMatchesLoop oracle s markers fuel
                { st with
                    results :=
                      ⟨sp.1, sp.2, repoId, relativePath, displayPath⟩ :: heap1,
                    childIndex := st.childIndex + 1 }
          else
            rankMatchesLoop oracle s markers fuel
              { st with childIndex := st.childIndex + 1 }
      else
        match st.stack with
        | fr :: stackRest =>
          rankMatchesLoop oracle s markers fuel
            { st with
                children := fr.children,
                childIndex := fr.childIndex + 1,
                foundMatch := fr.foundMatch,
                stack := stackRest }
        | [] => some (.done st.results st.iters)

/-- Model of `PathSearch::rank_matches` (project.rs lines 546-662): runs the loop
from a fresh stack and returns `Ok(results.into_sorted_vec())`. -/
def rankMatches (oracle : FuzzyOracle) (s : SearchState)
    (markers : List (Nat × MatchMarker)) (fuel : Nat) : Option RKResult :=
  match rankMatchesLoop oracle s markers fuel
      { results := [], steps := 0, iters := 0,
        children := initialChildren s.roots, childIndex := 0,
        foundMatch := false, stack := [] } with
  | none => none
  | some (.cancelled n) => some (.cancelled n)
  | some (.panicked n) => some (.panicked n)
  | some (.done raw n) => some (.done (intoSortedVec raw) n)

/-! #### Poll (project.rs lines 682-696) -/

inductive PollOutcome where
  | done
  | cancelled
  | panicked
deriving DecidableEq, Repr

/-- What one `poll` did: its outcome (`Ok(Ready(()))`, the `Err(())`
cancellation, or a panic), the status update actually published through
the weak cell (`try_set` succeeds only while the observer lives), and the
ghost iteration counts of the two phases. -/
structure PollResult where
  outcome : PollOutcome
  published : Option PathSearchStatus
  iters1 : Nat
  iters2 : Nat
deriving DecidableEq, Repr

/-- Model of `WeakNotifyCell::try_set`: the status reaches the cell only if the
observer still holds it alive. -/
def tryPublish (hasObservers : Bool) (st : PathSearchStatus) :
    Option PathSearchStatus :=
  if hasObservers then some st else none

/-- Model of `<PathSearch as Future>::poll` (project.rs lines 686-695): an empty
needle short-circuits to publishing `Ready([])`; otherwise both phases run
to completion and `Ready(results)` is published in one update, any
cancellation aborting the poll before any publication. -/
def pathSearchPoll (oracle : FuzzyOracle) (s : SearchState) (fuel : Nat) :
    Option PollResult :=
  if s.needle = [] then
    some ⟨.done, tryPublish s.hasObservers (.Ready []), 0, 0⟩
  else
    match findMatches oracle s fuel with
    | none => none
    | some (.cancelled n1) => some ⟨.cancelled, none, n1, 0⟩
    | some (.done markers n1) =>
      match rankMatches oracle s markers fuel with
      | none => none
      | some (.cancelled n2) => some ⟨.cancelled, none, n1, n2⟩
      | some (.panicked n2) => some ⟨.panicked, none, n1, n2⟩
      | some (.done results n2) =>
        some ⟨.done, tryPublish s.hasObservers (.Ready results), n1, n2⟩

/-! ### A concrete fuzzy oracle for concrete searches

The real matcher/scorer (external, out of scope) does subsequence matching
of the needle against the concatenated segment stack.  This concrete
instance is used to run the embedded search on concrete trees. -/

/-- Positions (ascending character indices) at which `needle` embeds as a
subsequence of `hay`, greedily; `none` if it does not embed. -/
def subseqPositions (needle hay : List Char) (base : Nat) : Option (List Nat) :=
  match needle, hay with
  | [], _ => some []
  | _ :: _, [] => none
  | c :: ns, h :: hs =>
    if c = h then
      (subseqPositions ns hs (base + 1)).map (fun ps => base :: ps)
    else
      subseqPositions (c :: ns) hs (base + 1)

/-- Concrete oracle: a stack matches when the needle is a subsequence of
the concatenated segments; the score favours shorter display paths. -/
def subseqOracle (needle : List Char) : FuzzyOracle where
  isMatch stack := (subseqPositions needle stack.flatten 0).isSome
  score stack :=
    match subseqPositions needle stack.flatten 0 with
    | some ps => (1000 - min 1000 stack.flatten.length, ps)
    | none => (0, [])

/-! ### CRDT register (`repository.rs` lines 137-213)

`Register<T>` keeps its entries in a `BTreeSet<RegisterEntry<T>>` whose
`Ord` (lines 206-213) compares the lamport timestamp and breaks ties by
the replica id of the entry's operation id.  The set is modelled as the
list of entries in ascending `Ord` order; `BTreeSet::insert` keeps the
existing element when an `Ord`-equal one is present. -/

structure EpochId where
  replicaId : Nat
  timestamp : Nat
deriving DecidableEq, Repr

/-- Model of `OperationId` (repository.rs lines 130-135); `ReplicaId` (a UUID) is
modelled as a natural number. -/
structure OperationId where
  epochId : EpochId
  replicaId : Nat
  timestamp : Nat
deriving DecidableEq, Repr

/-- Model of `RegisterEntry<T>` (repository.rs lines 149-153). -/
structure RegEntry (T : Type) where
  id : OperationId
  lamportTimestamp : Nat
  value : T
deriving DecidableEq, Repr

/-- The `Ord` on register entries as a strict order: lamport timestamps
compared first, ties broken by the replica id of the operation id
(repository.rs lines 206-213). -/
def regEntryLt {T : Type} (a b : RegEntry T) : Bool :=
  a.lamportTimestamp < b.lamportTimestamp ||
    (a.lamportTimestamp = b.lamportTimestamp && a.id.replicaId < b.id.replicaId)

/-- Model of `BTreeSet::insert` on the ascending entry list: insert in order, and
when an `Ord`-equal element is already present keep the existing one. -/
def btreeInsert {T : Type} (e : RegEntry T) : List (RegEntry T) → List (RegEntry T)
  | [] => [e]
  | x :: xs =>
    if regEntryLt e x then e :: x :: xs
    else if regEntryLt x e then x :: btreeInsert e xs
    else x :: xs

structure Register (T : Type) where
  entries : List (RegEntry T)

/-- Model of `Register::set` (repository.rs lines 179-185). -/
def Register.set {T : Type} (r : Register T) (id : OperationId)
    (lamportTimestamp : Nat) (value : T) : Register T :=
  { entries := btreeInsert ⟨id, lamportTimestamp, value⟩ r.entries }

/-- Model of `Register::value` (repository.rs lines 187-190):
`entries.iter().next_back()` is the greatest element of the set. -/
def Register.value {T : Type} (r : Register T) : Option T :=
  r.entries.getLast?.map (fun e => e.value)

/-- A register built by a sequence of `set` operations from the empty
register. -/
def applySets {T : Type} (ops : List (OperationId × Nat × T)) : Register T :=
  ops.foldl (fun r op => r.set op.1 op.2.1 op.2.2) ⟨[]⟩

/-! ### Invariant predicates and concrete instances -/

/-- Closure of a set of entries under taking children. -/
def entriesClosed (U : List FsEntry) : Prop :=
  ∀ e ∈ U, ∀ c ∈ e.children, c ∈ U

/-- Invariant of the phase-1 walk relative to a universe `U` of entries:
all pending children live in `U`, every suspended frame points at an
in-bounds, non-ignored entry of `U`, and every marker recorded so far
names a non-ignored entry of `U`. -/
def FMInv (U : List FsEntry) (st : FMLoop) : Prop :=
  (∀ e ∈ st.children, e ∈ U) ∧
  (∀ fr ∈ st.stack,
    (∀ e ∈ fr.children, e ∈ U) ∧ fr.childIndex < fr.children.length ∧
      (fr.children.getD fr.childIndex default).ignored = false) ∧
  (∀ p ∈ st.results, ∃ e ∈ U, FsEntry.eid e = p.1 ∧ FsEntry.ignored e = false)

/-- Strict ascending chain in the register-entry order — the shape of a
`BTreeSet`'s element sequence. -/
def regSorted {T : Type} (l : List (RegEntry T)) : Prop :=
  List.Pairwise (fun a b => regEntryLt a b = true) l

/-- Concrete tree: a non-ignored directory `x1/` whose name matches the
needle `x`, containing a single *ignored* file `f`. -/
def treeIgnUnderMatch : FsEntry :=
  .mk 0 ['r', '/'] false true
    [.mk 1 ['x', '1', '/'] false true [.mk 2 ['f'] true false []]]

def searchIgnUnderMatch (incl : Bool) : SearchState :=
  { repoIds := [0], roots := [treeIgnUnderMatch], needle := ['x'],
    maxResults := 10, includeIgnored := incl, hasObservers := true }

/-- Concrete tree: a single *ignored* file `gx` whose own name matches the
needle `x`, with no matched ancestor. -/
def treeIgnOwnMatch : FsEntry :=
  .mk 0 ['r', '/'] false true [.mk 1 ['g', 'x'] true false []]

def searchIgnOwnMatch : SearchState :=
  { repoIds := [0], roots := [treeIgnOwnMatch], needle := ['x'],
    maxResults := 10, includeIgnored := true, hasObservers := true }

/-- Concrete tree with one file `a` matching the needle `a`. -/
def treeOneMatch : FsEntry :=
  .mk 0 ['r', '/'] false true [.mk 1 ['a'] false false []]

/-- A search over `treeOneMatch` constructed with `max_results = 0` and the
non-empty needle `a`. -/
def searchZeroMax : SearchState :=
  { repoIds := [0], roots := [treeOneMatch], needle := ['a'],
    maxResults := 0, includeIgnored := true, hasObservers := true }

/-- A well-formed search over `treeOneMatch` (`max_results = 10`). -/
def searchOneMatch : SearchState :=
  { repoIds := [0], roots := [treeOneMatch], needle := ['a'],
    maxResults := 10, includeIgnored := true, hasObservers := true }

/-! ## Theorems -/

/-! ### Registry lemmas -/

theorem findByFileId_fst (reg : List RegistryEntry) (fid : Nat) :
    (findByFileId reg fid).1 = reg.filter (fun e => e.alive) := by
  induction reg with
  | nil => rfl
  | cons e rest ih =>
    simp only [findByFileId, List.filter]
    cases ha : e.alive <;> simp [ha, ih]

theorem findByFileId_some {reg : List RegistryEntry} {fid b : Nat}
    (h : (findByFileId reg fid).2 = some b) : liveFidMem reg fid b := by
  induction reg with
  | nil => simp [findByFileId] at h
  | cons e rest ih =>
    simp only [findByFileId] at h
    cases ha : e.alive with
    | false =>
      simp only [ha, Bool.false_eq_true, if_false] at h
      obtain ⟨x, hx, hprops⟩ := ih h
      exact ⟨x, List.mem_cons_of_mem _ hx, hprops⟩
    | true =>
      simp only [ha, if_true] at h
      by_cases hs : (findByFileId rest fid).2.isSome
      · simp only [hs, if_true] at h
        obtain ⟨x, hx, hprops⟩ := ih h
        exact ⟨x, List.mem_cons_of_mem _ hx, hprops⟩
      · simp only [hs, if_false] at h
        by_cases hf : e.fileId = some fid
        · simp only [hf, if_pos rfl] at h
          exact ⟨e, List.mem_cons_self e rest, ha, hf, by
            cases h; rfl⟩
        · simp [hf] at h

theorem findByFileId_none {reg : List RegistryEntry} {fid : Nat}
    (h : (findByFileId reg fid).2 = none) : liveFidCount reg fid = 0 := by
  induction reg with
  | nil => rfl
  | cons e rest ih =>
    simp only [findByFileId] at h
    cases ha : e.alive with
    | false =>
      simp only [ha, Bool.false_eq_true, if_false] at h
      simpa [liveFidCount, List.filter, ha] using ih h
    | true =>
      simp only [ha, if_true] at h
      by_cases hs : (findByFileId rest fid).2.isSome
      · rw [if_pos hs] at h
        rw [h] at hs
        simp at hs
      · rw [if_neg hs] at h
        by_cases hf : e.fileId = some fid
        · simp [hf] at h
        · have hrest : (findByFileId rest fid).2 = none := by
            cases hv : (findByFileId rest fid).2 with
            | none => rfl
            | some b => rw [hv] at hs; simp at hs
          simpa [liveFidCount, List.filter, ha, hf] using ih hrest

theorem liveFidCount_filter (reg : List RegistryEntry) (fid : Nat) :
    liveFidCount (reg.filter (fun e => e.alive)) fid = liveFidCount reg fid := by
  unfold liveFidCount
  rw [List.filter_filter]
  congr 1
  apply List.filter_congr
  intro x _
  cases hx : x.alive <;> simp [hx]

theorem liveFidCount_append_one (l : List RegistryEntry) (n fid : Nat) :
    liveFidCount (l ++ [⟨n, some fid, true⟩]) fid = liveFidCount l fid + 1 := by
  unfold liveFidCount
  rw [List.filter_append]
  simp

theorem liveFidMem_filter {reg : List RegistryEntry} {fid b : Nat}
    (h : liveFidMem reg fid b) :
    liveFidMem (reg.filter (fun e => e.alive)) fid b := by
  obtain ⟨e, he, ha, hf, hb⟩ := h
  exact ⟨e, List.mem_filter.2 ⟨he, ha⟩, ha, hf, hb⟩

theorem liveFidMem_append {reg more : List RegistryEntry} {fid b : Nat}
    (h : liveFidMem reg fid b) : liveFidMem (reg ++ more) fid b := by
  obtain ⟨e, he, hprops⟩ := h
  exact ⟨e, List.mem_append_left _ he, hprops⟩

theorem liveFidMem_count_pos {reg : List RegistryEntry} {fid b : Nat}
    (h : liveFidMem reg fid b) : 1 ≤ liveFidCount reg fid := by
  obtain ⟨e, he, ha, hf, _⟩ := h
  have hm : e ∈ reg.filter (fun e => e.alive && e.fileId = some fid) :=
    List.mem_filter.2 ⟨he, by simp [ha, hf]⟩
  have := List.length_pos.2 (List.ne_nil_of_mem hm)
  simpa [liveFidCount] using this

theorem liveFidMem_unique {reg : List RegistryEntry} {fid b b' : Nat}
    (hc : liveFidCount reg fid ≤ 1)
    (h : liveFidMem reg fid b) (h' : liveFidMem reg fid b') : b = b' := by
  obtain ⟨e, he, ha, hf, hb⟩ := h
  obtain ⟨e', he', ha', hf', hb'⟩ := h'
  have hme : e ∈ reg.filter (fun x => x.alive && x.fileId = some fid) :=
    List.mem_filter.2 ⟨he, by simp [ha, hf]⟩
  have hme' : e' ∈ reg.filter (fun x => x.alive && x.fileId = some fid) :=
    List.mem_filter.2 ⟨he', by simp [ha', hf']⟩
  unfold liveFidCount at hc
  cases hl : reg.filter (fun x => x.alive && x.fileId = some fid) with
  | nil => rw [hl] at hme; simp at hme
  | cons x rest =>
    rw [hl] at hme hme' hc
    have hrest : rest = [] := by
      simp only [List.length_cons] at hc
      exact List.eq_nil_of_length_eq_zero (by omega)
    subst hrest
    have h1 : e = x := by simpa using hme
    have h2 : e' = x := by simpa using hme'
    rw [← hb, ← hb', h1, h2]

/-! ### The open-path race invariant -/

theorem fiberResume_inv {fid : Nat} {reg : List RegistryEntry} {nextId : Nat}
    {fs : FiberState}
    (hc : liveFidCount reg fid ≤ 1)
    (hmem : ∀ b, fs = .done b → liveFidMem reg fid b) :
    liveFidCount (fiberResume fid reg nextId fs).1 fid ≤ 1 ∧
      (∀ b, (fiberResume fid reg nextId fs).2.2 = .done b →
        liveFidMem (fiberResume fid reg nextId fs).1 fid b) ∧
      (∀ c, liveFidMem reg fid c →
        liveFidMem (fiberResume fid reg nextId fs).1 fid c) := by
  cases fs with
  | start =>
    simp only [fiberResume]
    cases hv : (findByFileId reg fid).2 with
    | some b =>
      refine ⟨?_, ?_, ?_⟩
      · rw [findByFileId_fst, liveFidCount_filter]; exact hc
      · intro b' hb'
        cases hb'
        rw [findByFileId_fst]
        exact liveFidMem_filter (findByFileId_some hv)
      · intro c hcmem
        rw [findByFileId_fst]
        exact liveFidMem_filter hcmem
    | none =>
      refine ⟨?_, ?_, ?_⟩
      · rw [findByFileId_fst, liveFidCount_filter]; exact hc
      · intro b' hb'; cases hb'
      · intro c hcmem
        rw [findByFileId_fst]
        exact liveFidMem_filter hcmem
  | reading =>
    simp only [fiberResume]
    cases hv : (findByFileId reg fid).2 with
    | some b =>
      refine ⟨?_, ?_, ?_⟩
      · rw [findByFileId_fst, liveFidCount_filter]; exact hc
      · intro b' hb'
        cases hb'
        rw [findByFileId_fst]
        exact liveFidMem_filter (findByFileId_some hv)
      · intro c hcmem
        rw [findByFileId_fst]
        exact liveFidMem_filter hcmem
    | none =>
      have hzero : liveFidCount (findByFileId reg fid).1 fid = 0 := by
        rw [findByFileId_fst, liveFidCount_filter]
        exact findByFileId_none hv
      refine ⟨?_, ?_, ?_⟩
      · rw [liveFidCount_append_one, hzero]
      · intro b' hb'
        cases hb'
        exact ⟨⟨nextId, some fid, true⟩, by simp, rfl, rfl, rfl⟩
      · intro c hcmem
        exfalso
        have h1 := liveFidMem_count_pos (liveFidMem_filter hcmem)
        rw [liveFidCount_filter] at h1
        have h0 := findByFileId_none hv
        omega
  | done b =>
    exact ⟨hc, fun b' hb' => hmem b' hb', fun c hcmem => hcmem⟩

theorem raceStep_inv {fid : Nat} {s : OpenRace} {first : Bool}
    (h : RaceInv fid s) : RaceInv fid (raceStep fid s first) := by
  obtain ⟨hc, h1, h2⟩ := h
  cases first with
  | true =>
    obtain ⟨hc', hdone', hmono⟩ :=
      @fiberResume_inv fid s.reg s.nextBufId s.f1 hc h1
    refine ⟨hc', hdone', ?_⟩
    intro b hb
    simp only [raceStep, if_true] at hb ⊢
    exact hmono _ (h2 b hb)
  | false =>
    obtain ⟨hc', hdone', hmono⟩ :=
      @fiberResume_inv fid s.reg s.nextBufId s.f2 hc h2
    refine ⟨hc', ?_, hdone'⟩
    intro b hb
    simp only [raceStep, Bool.false_eq_true, if_false] at hb ⊢
    exact hmono _ (h1 b hb)

theorem raceRun_inv {fid : Nat} (sched : List Bool) {s : OpenRace}
    (h : RaceInv fid s) : RaceInv fid (raceRun fid sched s) := by
  induction sched generalizing s with
  | nil => exact h
  | cons b rest ih => exact ih (raceStep_inv h)

/-- C1. Two concurrent `open_path` calls on a `LocalProject` for the same
`(repo, relative_path)` — hence for the same file identity — that both
complete successfully resolve to the same buffer: under *any* interleaving
of the two suspension points (file-provider open and file read), the
re-check of the registry by file identity after the read ensures the loser
returns the buffer the winner installed.  The hypothesis is the registry
invariant (at most one live buffer per file identity) at the start. -/
theorem open_path_concurrent_same_buffer
    (fid : Nat) (sched : List Bool) (init : OpenRace) (b1 b2 : Nat)
    (hcount : liveFidCount init.reg fid ≤ 1)
    (hf1 : init.f1 = .start) (hf2 : init.f2 = .start)
    (hdone1 : (raceRun fid sched init).f1 = .done b1)
    (hdone2 : (raceRun fid sched init).f2 = .done b2) :
    b1 = b2 := by
  have hinv : RaceInv fid init := by
    refine ⟨hcount, ?_, ?_⟩
    · intro b hb; rw [hf1] at hb; cases hb
    · intro b hb; rw [hf2] at hb; cases hb
  have hfin := raceRun_inv sched hinv
  obtain ⟨hc, h1, h2⟩ := hfin
  exact liveFidMem_unique hc (h1 b1 hdone1) (h2 b2 hdone2)

/-- Witness for C1: a concrete run of the race from an empty registry in
which both fibers miss the first check, both read, the first fiber installs
and the second adopts the installed buffer. -/
theorem open_path_concurrent_same_buffer_witness :
    let init : OpenRace := ⟨[], 0, .start, .start⟩
    let sched := [true, false, true, false]
    liveFidCount init.reg 7 ≤ 1 ∧
      (raceRun 7 sched init).f1 = .done 0 ∧
      (raceRun 7 sched init).f2 = .done 0 ∧ (0 : Nat) = 0 := by
  refine ⟨by decide, by decide, by decide, ?_⟩
  exact open_path_concurrent_same_buffer 7 [true, false, true, false]
    ⟨[], 0, .start, .start⟩ 0 0 (by decide) rfl rfl (by decide) (by decide)

/-- C7. Opening a path under a repo id that is not registered with the
local project fails immediately with `TreeNotFound`: no file-provider call
is made, the registry is never consulted, no buffer id is allocated, and
the project state is unchanged. -/
theorem unknown_repo_tree_not_found
    (fp : FileProviderModel) (proj : LocalProjectModel)
    (repoId : Nat) (rel : List String)
    (h : proj.repos.lookup repoId = none) :
    openPathSingle fp proj repoId rel = (.error .treeNotFound, [], proj) := by
  unfold openPathSingle resolvePath
  rw [h]
  rfl

/-- Witness for C7: a concrete project knowing only repo 0, asked for
repo 5. -/
theorem unknown_repo_tree_not_found_witness :
    let proj : LocalProjectModel := ⟨[(0, ["root"])], 3, []⟩
    let fp : FileProviderModel := ⟨fun _ => .ok 0, fun _ => .ok []⟩
    proj.repos.lookup 5 = none ∧
      openPathSingle fp proj 5 ["a"] = (.error .treeNotFound, [], proj) := by
  refine ⟨by decide, ?_⟩
  exact unknown_repo_tree_not_found _ _ 5 ["a"] (by decide)

/-! ### Easy poll facts: empty needle, determinism, max_results = 0 -/

/-- C6. A search whose needle is empty short-circuits both phases: a
single poll publishes exactly `Ready([])` in one status update (the
observer being alive) and reports done, running zero iterations of either
phase. -/
theorem empty_needle_ready_empty (oracle : FuzzyOracle) (s : SearchState)
    (fuel : Nat) (hn : s.needle = []) (ho : s.hasObservers = true) :
    pathSearchPoll oracle s fuel =
      some ⟨.done, some (.Ready []), 0, 0⟩ := by
  unfold pathSearchPoll tryPublish
  rw [if_pos hn, if_pos ho]

/-- Witness for C6 at a concrete search state. -/
theorem empty_needle_ready_empty_witness :
    pathSearchPoll (subseqOracle []) { searchOneMatch with needle := [] } 5 =
      some ⟨.done, some (.Ready []), 0, 0⟩ :=
  empty_needle_ready_empty (subseqOracle []) _ 5 rfl rfl

/-- C8. Path search is deterministic: two searches over identical snapshot
data (repo ids, root trees, needle, `max_results`, `include_ignored`,
observer liveness) publish identical results, including the relative order
of results with equal scores — the whole `PollResult` coincides. -/
theorem search_deterministic (oracle : FuzzyOracle) (s t : SearchState)
    (fuel : Nat)
    (h1 : s.repoIds = t.repoIds) (h2 : s.roots = t.roots)
    (h3 : s.needle = t.needle) (h4 : s.maxResults = t.maxResults)
    (h5 : s.includeIgnored = t.includeIgnored)
    (h6 : s.hasObservers = t.hasObservers) :
    pathSearchPoll oracle s fuel = pathSearchPoll oracle t fuel := by
  cases s
  cases t
  simp only at h1 h2 h3 h4 h5 h6
  subst h1 h2 h3 h4 h5 h6
  rfl

/-- Witness for C8: two structurally equal concrete states. -/
theorem search_deterministic_witness :
    pathSearchPoll (subseqOracle ['a']) searchOneMatch 50 =
      pathSearchPoll (subseqOracle ['a'])
        { repoIds := [0], roots := [treeOneMatch], needle := ['a'],
          maxResults := 10, includeIgnored := true, hasObservers := true } 50 :=
  search_deterministic (subseqOracle ['a']) _ _ 50 rfl rfl rfl rfl rfl rfl

/-- C9. Polling a search constructed with `max_results = 0` and a
non-empty needle panics on a tree containing a match instead of
publishing a result: when the rank phase reaches the first matching file,
`results.len() < 0` is false, so the admission check evaluates
`results.peek().map(|r| r.score).unwrap()` on the empty heap and unwraps
`None`.  Nothing is published. -/
theorem max_results_zero_panics :
    pathSearchPoll (subseqOracle ['a']) searchZeroMax 50 =
      some ⟨.panicked, none, 2, 1⟩ := by decide

/-! ### Heap and sorting lemmas -/

theorem heapPeekScore_eq_none {l : List PathSearchResult} :
    heapPeekScore l = none ↔ l = [] := by
  cases l with
  | nil => simp [heapPeekScore]
  | cons r rest =>
    simp only [heapPeekScore]
    cases heapPeekScore rest <;> simp

theorem heapPopWorst_length {l : List PathSearchResult} (h : l ≠ []) :
    (heapPopWorst l).length + 1 = l.length := by
  induction l with
  | nil => exact absurd rfl h
  | cons r rest ih =>
    simp only [heapPopWorst]
    cases hp : heapPeekScore rest with
    | none =>
      have : rest = [] := heapPeekScore_eq_none.1 hp
      subst this
      simp
    | some w =>
      have hrest : rest ≠ [] := by
        intro hc; subst hc; simp [heapPeekScore] at hp
      by_cases hle : r.score ≤ w
      · simp [hle]
      · simp only [hle, if_false, List.length_cons]
        rw [← ih hrest]

theorem intoSortedVec_sorted (l : List PathSearchResult) :
    List.Pairwise (fun a b => b.score ≤ a.score) (intoSortedVec l) := by
  have h := List.sorted_insertionSort resultLE l
  exact h.imp (fun hab => hab)

theorem intoSortedVec_length (l : List PathSearchResult) :
    (intoSortedVec l).length = l.length :=
  List.length_insertionSort resultLE l

theorem rankPush_len {l : List PathSearchResult} {max score : Nat}
    (hlen : l.length ≤ max) (hadm : rankAdmit max l score = some true)
    (r : PathSearchResult) :
    (r :: if l.length = max then heapPopWorst l else l).length ≤ max := by
  by_cases heq : l.length = max
  · rw [if_pos heq]
    have hnil : l ≠ [] := by
      intro hc
      rw [hc] at heq hadm
      simp only [List.length_nil] at heq
      unfold rankAdmit at hadm
      rw [if_neg (by omega)] at hadm
      simp [heapPeekScore] at hadm
    have hpop := heapPopWorst_length hnil
    simp only [List.length_cons]
    omega
  · rw [if_neg heq]
    simp only [List.length_cons]
    omega

/-- The heap of the rank loop never exceeds `max_results` entries: under
admission, the worst entry is evicted exactly when the heap is full. -/
theorem rankMatchesLoop_len (oracle : FuzzyOracle) (s : SearchState)
    (markers : List (Nat × MatchMarker)) :
    ∀ (fuel : Nat) (st : RKLoop) (raw : List PathSearchResult) (n : Nat),
    st.results.length ≤ s.maxResults →
    rankMatchesLoop oracle s markers fuel st = some (.done raw n) →
    raw.length ≤ s.maxResults := by
  intro fuel
  induction fuel with
  | zero => intro st raw n hlen h; simp [rankMatchesLoop] at h
  | succ fuel ih =>
    intro st raw n hlen h
    rw [rankMatchesLoop] at h
    split at h
    · simp at h
    · simp only [] at h
      split at h
      · -- childIndex < children.length
        split at h
        · -- ignored skip
          refine ih _ _ _ ?_ h; exact hlen
        · split at h
          · -- directory
            split at h
            · refine ih _ _ _ ?_ h; exact hlen
            · refine ih _ _ _ ?_ h; exact hlen
          · -- file
            split at h
            · -- scored: case on the admission check
              split at h
              · -- unwrap panic
                simp at h
              · -- rejected
                refine ih _ _ _ ?_ h; exact hlen
              · -- admitted
                rename_i hadm
                split at h
                all_goals (refine ih _ _ _ ?_ h; exact rankPush_len hlen hadm _)
            · refine ih _ _ _ ?_ h; exact hlen
      · -- ascend / finish
        split at h
        · refine ih _ _ _ ?_ h; exact hlen
        · simp only [Option.some.injEq, RKResult.done.injEq] at h
          obtain ⟨h1, -⟩ := h
          rw [← h1]
          exact hlen

theorem rankMatches_done_eq {oracle : FuzzyOracle} {s : SearchState}
    {markers : List (Nat × MatchMarker)} {fuel : Nat}
    {rs : List PathSearchResult} {n : Nat}
    (h : rankMatches oracle s markers fuel = some (.done rs n)) :
    ∃ raw, rs = intoSortedVec raw ∧
      rankMatchesLoop oracle s markers fuel
        { results := [], steps := 0, iters := 0,
          children := initialChildren s.roots, childIndex := 0,
          foundMatch := false, stack := [] } = some (.done raw n) := by
  unfold rankMatches at h
  split at h
  · simp at h
  · simp at h
  · simp at h
  · rename_i raw n' hloop
    simp only [Option.some.injEq, RKResult.done.injEq] at h
    obtain ⟨h1, h2⟩ := h
    exact ⟨raw, h1.symm, by rw [hloop, h2]⟩

/-- Anything a poll publishes as `Ready` is either the empty-needle empty
list or the output of a completed rank phase. -/
theorem poll_ready_cases {oracle : FuzzyOracle} {s : SearchState} {fuel : Nat}
    {pr : PollResult} {rs : List PathSearchResult}
    (h : pathSearchPoll oracle s fuel = some pr)
    (hp : pr.published = some (.Ready rs)) :
    rs = [] ∨ ∃ markers n1 n2,
      findMatches oracle s fuel = some (.done markers n1) ∧
      rankMatches oracle s markers fuel = some (.done rs n2) := by
  unfold pathSearchPoll at h
  split at h
  · injection h with h'
    subst h'
    simp only at hp
    unfold tryPublish at hp
    split at hp
    · left
      simp only [Option.some.injEq, PathSearchStatus.Ready.injEq] at hp
      exact hp.symm
    · simp at hp
  · split at h
    · simp at h
    · injection h with h'
      subst h'
      simp at hp
    · rename_i markers n1 hfm
      split at h
      · simp at h
      · injection h with h'
        subst h'
        simp at hp
      · injection h with h'
        subst h'
        simp at hp
      · rename_i results n2 hrk
        injection h with h'
        subst h'
        simp only at hp
        unfold tryPublish at hp
        split at hp
        · simp only [Option.some.injEq, PathSearchStatus.Ready.injEq] at hp
          subst hp
          exact Or.inr ⟨markers, n1, n2, hfm, hrk⟩
        · simp at hp

/-- C2. Every published `Ready` result list is sorted in descending order
by score: each result's score is greater than or equal to the score of
every subsequent result.  (Internally the heap flush is ascending in the
reversed heap order; publicly best results come first.) -/
theorem ready_results_sorted_descending (oracle : FuzzyOracle)
    (s : SearchState) (fuel : Nat) (pr : PollResult)
    (rs : List PathSearchResult)
    (h : pathSearchPoll oracle s fuel = some pr)
    (hp : pr.published = some (.Ready rs)) :
    List.Pairwise (fun a b => b.score ≤ a.score) rs := by
  rcases poll_ready_cases h hp with hrs | ⟨m, n1, n2, _, hrk⟩
  · subst hrs; exact List.Pairwise.nil
  · obtain ⟨raw, hraw, -⟩ := rankMatches_done_eq hrk
    rw [hraw]
    exact intoSortedVec_sorted raw

/-- Witness for C2 at a concrete one-match search. -/
theorem ready_results_sorted_descending_witness :
    pathSearchPoll (subseqOracle ['a']) searchOneMatch 50 =
      some ⟨.done, some (.Ready [⟨999, [0], 0, [['a']], ['a']⟩]), 2, 2⟩ ∧
    List.Pairwise (fun a b => b.score ≤ a.score)
      [(⟨999, [0], 0, [['a']], ['a']⟩ : PathSearchResult)] :=
  ⟨by decide,
    ready_results_sorted_descending (subseqOracle ['a']) searchOneMatch 50
      ⟨.done, some (.Ready [⟨999, [0], 0, [['a']], ['a']⟩]), 2, 2⟩
      [⟨999, [0], 0, [['a']], ['a']⟩] (by decide) (by decide)⟩

/-- C4. The admission rule of the rank phase and the top-K bound: a scored
file is admitted exactly when the heap is under capacity or its score
strictly exceeds the worst kept score (the check panics rather than
answering when the heap is empty at capacity), and every published `Ready`
list holds at most `max_results` results — the worst entry being evicted
before a push whenever the heap is full. -/
theorem rank_admission_and_max_results_bound :
    (∀ (max score : Nat) (heap : List PathSearchResult),
      rankAdmit max heap score = some true ↔
        (heap.length < max ∨ ∃ w, heapPeekScore heap = some w ∧ w < score)) ∧
    (∀ (oracle : FuzzyOracle) (s : SearchState) (fuel : Nat)
        (pr : PollResult) (rs : List PathSearchResult),
      pathSearchPoll oracle s fuel = some pr →
      pr.published = some (.Ready rs) → rs.length ≤ s.maxResults) := by
  constructor
  · intro max score heap
    unfold rankAdmit
    by_cases hlt : heap.length < max
    · simp [hlt]
    · rw [if_neg hlt]
      cases hpk : heapPeekScore heap with
      | none => simp [hlt, hpk]
      | some w => simp [hlt, hpk]
  · intro oracle s fuel pr rs h hp
    rcases poll_ready_cases h hp with hrs | ⟨m, n1, n2, _, hrk⟩
    · subst hrs; simp
    · obtain ⟨raw, hraw, hloop⟩ := rankMatches_done_eq hrk
      have hraw_len := rankMatchesLoop_len oracle s m fuel _ raw n2 (by simp) hloop
      rw [hraw, intoSortedVec_length]
      exact hraw_len

/-- Witness for C4: the admission iff at a concrete heap, and the length
bound at a concrete poll. -/
theorem rank_admission_and_max_results_bound_witness :
    rankAdmit 2 [] 5 = some true ∧
    ([(⟨999, [0], 0, [['a']], ['a']⟩ : PathSearchResult)]).length ≤
      searchOneMatch.maxResults :=
  ⟨(rank_admission_and_max_results_bound.1 2 5 []).2 (Or.inl (by decide)),
    rank_admission_and_max_results_bound.2 (subseqOracle ['a']) searchOneMatch 50
      ⟨.done, some (.Ready [⟨999, [0], 0, [['a']], ['a']⟩]), 2, 2⟩
      [⟨999, [0], 0, [['a']], ['a']⟩] (by decide) (by decide)⟩

/-! ### Cancellation counting

With the observer dropped (`has_observers() = false`), every
`check_cancellation` call either increments the counter below the
threshold or cancels the walk at the exact iteration where the counter
reaches it; the ghost iteration counts make this quantitative. -/

theorem findMatchesLoop_cancel_count (oracle : FuzzyOracle) :
    ∀ (fuel : Nat) (st : FMLoop) (n : Nat),
    findMatchesLoop oracle false fuel st = some (.cancelled n) →
    st.steps < 10000 →
    n + st.steps = st.iters + 10000 := by
  intro fuel
  induction fuel with
  | zero => intro st n h hs; simp [findMatchesLoop] at h
  | succ fuel ih =>
    intro st n h hs
    rw [findMatchesLoop] at h
    split at h
    · rename_i hcond
      injection h with h'
      injection h' with h''
      obtain ⟨hc1, -⟩ := hcond
      omega
    · rename_i hcond
      have hne : st.steps + 1 ≠ 10000 := by simpa using hcond
      simp only [] at h
      rw [if_neg hne] at h
      repeat' split at h
      all_goals first
        | (injection h with h'; cases h')
        | (have hrec : n + (st.steps + 1) = st.iters + 1 + 10000 :=
             ih _ _ h (show st.steps + 1 < 10000 by omega);
           omega)

theorem findMatchesLoop_done_count (oracle : FuzzyOracle) :
    ∀ (fuel : Nat) (st : FMLoop) (m : List (Nat × MatchMarker)) (n : Nat),
    findMatchesLoop oracle false fuel st = some (.done m n) →
    st.steps < 10000 →
    n + st.steps < st.iters + 10000 := by
  intro fuel
  induction fuel with
  | zero => intro st m n h hs; simp [findMatchesLoop] at h
  | succ fuel ih =>
    intro st m n h hs
    rw [findMatchesLoop] at h
    split at h
    · injection h with h'; cases h'
    · rename_i hcond
      have hne : st.steps + 1 ≠ 10000 := by simpa using hcond
      simp only [] at h
      rw [if_neg hne] at h
      repeat' split at h
      all_goals first
        | (injection h with h'; injection h' with h1 h2;
           have hx : st.iters + 1 = n := h2; omega)
        | (have hrec : n + (st.steps + 1) < st.iters + 1 + 10000 :=
             ih _ _ _ h (show st.steps + 1 < 10000 by omega);
           omega)


theorem rankMatchesLoop_cancel_count (oracle : FuzzyOracle) (s : SearchState)
    (markers : List (Nat × MatchMarker)) (ho : s.hasObservers = false) :
    ∀ (fuel : Nat) (st : RKLoop) (n : Nat),
    rankMatchesLoop oracle s markers fuel st = some (.cancelled n) →
    st.steps < 1000 →
    n + st.steps = st.iters + 1000 := by
  intro fuel
  induction fuel with
  | zero => intro st n h hs; simp [rankMatchesLoop] at h
  | succ fuel ih =>
    intro st n h hs
    rw [rankMatchesLoop] at h
    split at h
    · rename_i hcond
      injection h with h'
      injection h' with h''
      obtain ⟨hc1, -⟩ := hcond
      omega
    · rename_i hcond
      have hne : st.steps + 1 ≠ 1000 := by
        intro hc; exact hcond ⟨hc, ho⟩
      simp only [] at h
      rw [if_neg hne] at h
      repeat' split at h
      all_goals first
        | (injection h with h'; cases h')
        | (have hrec : n + (st.steps + 1) = st.iters + 1 + 1000 :=
             ih _ _ h (show st.steps + 1 < 1000 by omega);
           omega)

theorem rankMatchesLoop_done_count (oracle : FuzzyOracle) (s : SearchState)
    (markers : List (Nat × MatchMarker)) (ho : s.hasObservers = false) :
    ∀ (fuel : Nat) (st : RKLoop) (m : List PathSearchResult) (n : Nat),
    rankMatchesLoop oracle s markers fuel st = some (.done m n) →
    st.steps < 1000 →
    n + st.steps < st.iters + 1000 := by
  intro fuel
  induction fuel with
  | zero => intro st m n h hs; simp [rankMatchesLoop] at h
  | succ fuel ih =>
    intro st m n h hs
    rw [rankMatchesLoop] at h
    split at h
    · injection h with h'; cases h'
    · rename_i hcond
      have hne : st.steps + 1 ≠ 1000 := by
        intro hc; exact hcond ⟨hc, ho⟩
      simp only [] at h
      rw [if_neg hne] at h
      repeat' split at h
      all_goals first
        | (injection h with h'; cases h' <;> omega)
        | (have hrec : n + (st.steps + 1) < st.iters + 1 + 1000 :=
             ih _ _ _ h (show st.steps + 1 < 1000 by omega);
           omega)

theorem rankMatchesLoop_panic_count (oracle : FuzzyOracle) (s : SearchState)
    (markers : List (Nat × MatchMarker)) (ho : s.hasObservers = false) :
    ∀ (fuel : Nat) (st : RKLoop) (n : Nat),
    rankMatchesLoop oracle s markers fuel st = some (.panicked n) →
    st.steps < 1000 →
    n + st.steps < st.iters + 1000 := by
  intro fuel
  induction fuel with
  | zero => intro st n h hs; simp [rankMatchesLoop] at h
  | succ fuel ih =>
    intro st n h hs
    rw [rankMatchesLoop] at h
    split at h
    · injection h with h'; cases h'
    · rename_i hcond
      have hne : st.steps + 1 ≠ 1000 := by
        intro hc; exact hcond ⟨hc, ho⟩
      simp only [] at h
      rw [if_neg hne] at h
      repeat' split at h
      all_goals first
        | (injection h with h'; cases h' <;> omega)
        | (have hrec : n + (st.steps + 1) < st.iters + 1 + 1000 :=
             ih _ _ h (show st.steps + 1 < 1000 by omega);
           omega)


theorem rankMatches_cancelled_eq {oracle : FuzzyOracle} {s : SearchState}
    {markers : List (Nat × MatchMarker)} {fuel n : Nat}
    (h : rankMatches oracle s markers fuel = some (.cancelled n)) :
    rankMatchesLoop oracle s markers fuel
      { results := [], steps := 0, iters := 0,
        children := initialChildren s.roots, childIndex := 0,
        foundMatch := false, stack := [] } = some (.cancelled n) := by
  unfold rankMatches at h
  split at h
  · simp at h
  · rename_i hloop
    injection h with h'
    cases h'
    exact hloop
  · simp at h
  · simp at h

theorem rankMatches_panicked_eq {oracle : FuzzyOracle} {s : SearchState}
    {markers : List (Nat × MatchMarker)} {fuel n : Nat}
    (h : rankMatches oracle s markers fuel = some (.panicked n)) :
    rankMatchesLoop oracle s markers fuel
      { results := [], steps := 0, iters := 0,
        children := initialChildren s.roots, childIndex := 0,
        foundMatch := false, stack := [] } = some (.panicked n) := by
  unfold rankMatches at h
  split at h
  · simp at h
  · simp at h
  · rename_i hloop
    injection h with h'
    cases h'
    exact hloop
  · simp at h

theorem cancelled_observer_poll (oracle : FuzzyOracle) (s : SearchState)
    (fuel : Nat) (pr : PollResult)
    (ho : s.hasObservers = false)
    (h : pathSearchPoll oracle s fuel = some pr) :
    pr.published = none ∧
      ((10000 ≤ pr.iters1 ∨ 1000 ≤ pr.iters2) ↔ pr.outcome = .cancelled) := by
  unfold pathSearchPoll at h
  split at h
  · injection h with h'
    subst h'
    exact ⟨by simp [tryPublish, ho], by simp⟩
  · split at h
    · simp at h
    · rename_i n1 hfm
      injection h with h'
      subst h'
      unfold findMatches at hfm
      rw [ho] at hfm
      have hc : n1 + 0 = 0 + 10000 :=
        findMatchesLoop_cancel_count oracle fuel _ n1 hfm
          (show (0 : Nat) < 10000 by omega)
      have hn1 : n1 = 10000 := by omega
      exact ⟨rfl, by simp [hn1]⟩
    · rename_i markers n1 hfm
      have hn1 : n1 < 10000 := by
        unfold findMatches at hfm
        rw [ho] at hfm
        have hc : n1 + 0 < 0 + 10000 :=
          findMatchesLoop_done_count oracle fuel _ markers n1 hfm
            (show (0 : Nat) < 10000 by omega)
        omega
      split at h
      · simp at h
      · rename_i n2 hrk
        injection h with h'
        subst h'
        have hc : n2 + 0 = 0 + 1000 :=
          rankMatchesLoop_cancel_count oracle s markers ho fuel _ n2
            (rankMatches_cancelled_eq hrk) (show (0 : Nat) < 1000 by omega)
        have hn2 : n2 = 1000 := by omega
        exact ⟨rfl, by simp [hn2]⟩
      · rename_i n2 hrk
        injection h with h'
        subst h'
        have hc : n2 + 0 < 0 + 1000 :=
          rankMatchesLoop_panic_count oracle s markers ho fuel _ n2
            (rankMatches_panicked_eq hrk) (show (0 : Nat) < 1000 by omega)
        refine ⟨rfl, ?_⟩
        simp only [PollResult.iters1, PollResult.iters2, PollResult.outcome]
        constructor
        · intro hor
          omega
        · intro hout
          cases hout
      · rename_i results n2 hrk
        injection h with h'
        subst h'
        obtain ⟨raw, -, hloop⟩ := rankMatches_done_eq hrk
        have hc : n2 + 0 < 0 + 1000 :=
          rankMatchesLoop_done_count oracle s markers ho fuel _ raw n2 hloop
            (show (0 : Nat) < 1000 by omega)
        refine ⟨by simp [tryPublish, ho], ?_⟩
        simp only [PollResult.iters1, PollResult.iters2, PollResult.outcome]
        constructor
        · intro hor
          omega
        · intro hout
          cases hout

theorem cancelled_observer_poll_witness :
    pathSearchPoll (subseqOracle ['a'])
        { searchOneMatch with hasObservers := false } 50 =
      some ⟨.done, none, 2, 2⟩ ∧
    (⟨.done, none, 2, 2⟩ : PollResult).published = none ∧
      ((10000 ≤ (⟨.done, none, 2, 2⟩ : PollResult).iters1 ∨
          1000 ≤ (⟨.done, none, 2, 2⟩ : PollResult).iters2) ↔
        (⟨.done, none, 2, 2⟩ : PollResult).outcome = .cancelled) :=
  ⟨by decide,
    cancelled_observer_poll (subseqOracle ['a'])
      { searchOneMatch with hasObservers := false } 50
      ⟨.done, none, 2, 2⟩ rfl (by decide)⟩

/-! ### Ignored-entry handling (phase asymmetry) -/

theorem getD_mem_of_lt {α : Type} (l : List α) (d : α) {n : Nat}
    (h : n < l.length) : l.getD n d ∈ l := by
  rw [List.getD_eq_getElem l d h]
  exact List.getElem_mem h

theorem mem_allEntriesList_self :
    ∀ (l : List FsEntry), ∀ e ∈ l, e ∈ allEntriesList l := by
  intro l
  induction l with
  | nil => intro e he; cases he
  | cons head rest ih =>
    intro e he
    cases head with
    | mk i nm ig d cs =>
      rw [allEntriesList]
      cases List.mem_cons.1 he with
      | inl h => rw [h]; exact List.mem_cons_self _ _
      | inr h => exact List.mem_cons_of_mem _ (List.mem_append_right _ (ih e h))

theorem allEntriesList_closed :
    ∀ (l : List FsEntry), ∀ e ∈ allEntriesList l, ∀ c ∈ e.children,
      c ∈ allEntriesList l := by
  intro l
  induction l using allEntriesList.induct with
  | case1 => intro e he; rw [allEntriesList] at he; cases he
  | case2 i nm ig d cs rest ih1 ih2 =>
    intro e he c hc
    rw [allEntriesList] at he ⊢
    cases List.mem_cons.1 he with
    | inl h =>
      subst h
      simp only [FsEntry.children] at hc
      exact List.mem_cons_of_mem _
        (List.mem_append_left _ (mem_allEntriesList_self cs c hc))
    | inr h =>
      cases List.mem_append.1 h with
      | inl h' =>
        exact List.mem_cons_of_mem _
          (List.mem_append_left _ (ih1 e h' c hc))
      | inr h' =>
        exact List.mem_cons_of_mem _
          (List.mem_append_right _ (ih2 e h' c hc))

theorem initialChildren_sub (roots : List FsEntry) :
    ∀ e ∈ initialChildren roots, e ∈ allEntriesList roots := by
  intro e he
  match roots, he with
  | [r], he =>
    exact allEntriesList_closed [r] r
      (mem_allEntriesList_self [r] r (List.mem_singleton_self r)) e he
  | [], he => cases he
  | r1 :: r2 :: rs, he => exact mem_allEntriesList_self _ e he


theorem findMatchesLoop_marks (oracle : FuzzyOracle) (obs : Bool)
    (U : List FsEntry) (hU : entriesClosed U) :
    ∀ (fuel : Nat) (st : FMLoop) (m : List (Nat × MatchMarker)) (n : Nat),
    FMInv U st →
    findMatchesLoop oracle obs fuel st = some (.done m n) →
    ∀ p ∈ m, ∃ e ∈ U, FsEntry.eid e = p.1 ∧ FsEntry.ignored e = false := by
  intro fuel
  induction fuel with
  | zero => intro st m n hinv h; simp [findMatchesLoop] at h
  | succ fuel ih =>
    intro st m n hinv h
    obtain ⟨hch, hstk, hres⟩ := hinv
    rw [findMatchesLoop] at h
    split at h
    · simp at h
    · simp only [] at h
      split at h
      · rename_i hlt
        split at h
        · -- ignored: skipped, nothing recorded
          refine ih _ _ _ ?_ h
          exact ⟨hch, hstk, hres⟩
        · rename_i hig
          split at h
          · -- the name matched: record IsMatch for this non-ignored entry
            refine ih _ _ _ ?_ h
            refine ⟨hch, hstk, ?_⟩
            intro p hp
            cases List.mem_cons.1 hp with
            | inl hhead =>
              subst hhead
              exact ⟨st.children.getD st.childIndex default,
                hch _ (getD_mem_of_lt _ _ hlt), rfl, by simpa using hig⟩
            | inr htail => exact hres p htail
          · split at h
            · -- descend into a non-ignored directory
              refine ih _ _ _ ?_ h
              refine ⟨?_, ?_, hres⟩
              · intro e he
                exact hU _ (hch _ (getD_mem_of_lt _ _ hlt)) e he
              · intro fr hfr
                cases List.mem_cons.1 hfr with
                | inl hh =>
                  subst hh
                  exact ⟨hch, hlt, by simpa using hig⟩
                | inr ht => exact hstk fr ht
            · refine ih _ _ _ ?_ h
              exact ⟨hch, hstk, hres⟩
      · split at h
        · rename_i fr stackRest hstack
          have hfr0 : fr ∈ st.stack := by
            rw [hstack]; exact List.mem_cons_self _ _
          obtain ⟨frch, frlt, frig⟩ := hstk fr hfr0
          split at h
          · -- ascending out of a matched subtree: record ContainsMatch
            refine ih _ _ _ ?_ h
            refine ⟨frch, ?_, ?_⟩
            · intro fr' hfr'
              exact hstk fr' (by rw [hstack]; exact List.mem_cons_of_mem _ hfr')
            · intro p hp
              cases List.mem_cons.1 hp with
              | inl hh =>
                subst hh
                exact ⟨fr.children.getD fr.childIndex default,
                  frch _ (getD_mem_of_lt _ _ frlt), rfl, frig⟩
              | inr ht => exact hres p ht
          · refine ih _ _ _ ?_ h
            refine ⟨frch, ?_, hres⟩
            intro fr' hfr'
            exact hstk fr' (by rw [hstack]; exact List.mem_cons_of_mem _ hfr')
        · injection h with h'
          injection h' with h1 h2
          intro p hp
          exact hres p (by rw [h1]; exact hp)

/-- C5. Ignored-entry handling is asymmetric between the phases: the
find-matches phase skips ignored entries unconditionally — its output does
not depend on `include_ignored` at all, and every recorded marker names a
non-ignored entry of the forest — while the rank phase skips ignored
entries only when `include_ignored` is false.  Consequently (concrete
runs): with `include_ignored = true` an ignored file below a matched
directory is surfaced; with `include_ignored = false` it is not; and an
ignored file whose own name matches the needle is never surfaced even
with `include_ignored = true`, because it was never marked in phase 1. -/
theorem ignored_entry_handling :
    (∀ (oracle : FuzzyOracle) (s : SearchState) (b b' : Bool) (fuel : Nat),
      findMatches oracle { s with includeIgnored := b } fuel =
        findMatches oracle { s with includeIgnored := b' } fuel) ∧
    (∀ (oracle : FuzzyOracle) (s : SearchState) (fuel : Nat)
        (m : List (Nat × MatchMarker)) (n : Nat),
      findMatches oracle s fuel = some (.done m n) →
      ∀ p ∈ m, ∃ e ∈ allEntriesList s.roots,
        FsEntry.eid e = p.1 ∧ FsEntry.ignored e = false) ∧
    pathSearchPoll (subseqOracle ['x']) (searchIgnUnderMatch true) 100 =
      some ⟨.done,
        some (.Ready [⟨996, [0], 0, [['x', '1', '/'], ['f']],
          ['x', '1', '/', 'f']⟩]), 2, 4⟩ ∧
    pathSearchPoll (subseqOracle ['x']) (searchIgnUnderMatch false) 100 =
      some ⟨.done, some (.Ready []), 2, 4⟩ ∧
    pathSearchPoll (subseqOracle ['x']) searchIgnOwnMatch 100 =
      some ⟨.done, some (.Ready []), 2, 2⟩ := by
  refine ⟨?_, ?_, by decide, by decide, by decide⟩
  · intro oracle s b b' fuel
    cases s
    rfl
  · intro oracle s fuel m n h p hp
    unfold findMatches at h
    refine findMatchesLoop_marks oracle s.hasObservers (allEntriesList s.roots)
      (allEntriesList_closed s.roots) fuel _ m n
      ⟨initialChildren_sub s.roots, ?_, ?_⟩ h p hp
    · intro fr hfr; cases hfr
    · intro q hq; cases hq

/-- Witness for C5: phase 1 on the matched-directory tree records exactly
the directory marker, and it names a non-ignored entry. -/
theorem ignored_entry_handling_witness :
    findMatches (subseqOracle ['x']) (searchIgnUnderMatch true) 100 =
      some (.done [(1, .isMatch)] 2) ∧
    (∀ p ∈ [((1 : Nat), MatchMarker.isMatch)],
      ∃ e ∈ allEntriesList (searchIgnUnderMatch true).roots,
        FsEntry.eid e = p.1 ∧ FsEntry.ignored e = false) :=
  ⟨by decide,
    ignored_entry_handling.2.1 (subseqOracle ['x'])
      (searchIgnUnderMatch true) 100 [(1, .isMatch)] 2 (by decide)⟩

/-! ### CRDT register resolution -/

theorem regEntryLt_trans {T : Type} {a b c : RegEntry T}
    (h1 : regEntryLt a b = true) (h2 : regEntryLt b c = true) :
    regEntryLt a c = true := by
  simp only [regEntryLt, Bool.or_eq_true, Bool.and_eq_true,
    decide_eq_true_eq] at h1 h2 ⊢
  omega

theorem btreeInsert_mem {T : Type} {e y : RegEntry T} {l : List (RegEntry T)}
    (h : y ∈ btreeInsert e l) : y = e ∨ y ∈ l := by
  induction l with
  | nil => simp [btreeInsert] at h; exact Or.inl h
  | cons x xs ih =>
    rw [btreeInsert] at h
    split at h
    · cases List.mem_cons.1 h with
      | inl hh => exact Or.inl hh
      | inr hh => exact Or.inr hh
    · split at h
      · cases List.mem_cons.1 h with
        | inl hh => exact Or.inr (by rw [hh]; exact List.mem_cons_self _ _)
        | inr hh =>
          cases ih hh with
          | inl h' => exact Or.inl h'
          | inr h' => exact Or.inr (List.mem_cons_of_mem _ h')
      · exact Or.inr h

theorem btreeInsert_sorted {T : Type} (e : RegEntry T) {l : List (RegEntry T)}
    (hs : regSorted l) : regSorted (btreeInsert e l) := by
  induction l with
  | nil => simp [btreeInsert, regSorted]
  | cons x xs ih =>
    simp only [regSorted, List.pairwise_cons] at hs
    obtain ⟨hx, hxs⟩ := hs
    rw [btreeInsert]
    split
    · rename_i hex
      simp only [regSorted, List.pairwise_cons]
      refine ⟨?_, hx, hxs⟩
      intro y hy
      cases List.mem_cons.1 hy with
      | inl hh => rw [hh]; exact hex
      | inr hh => exact regEntryLt_trans hex (hx y hh)
    · split
      · rename_i hxe
        simp only [regSorted, List.pairwise_cons]
        refine ⟨?_, ih hxs⟩
        intro y hy
        cases btreeInsert_mem hy with
        | inl hh => rw [hh]; exact hxe
        | inr hh => exact hx y hh
      · simp only [regSorted, List.pairwise_cons]
        exact ⟨hx, hxs⟩

theorem regSorted_getLast_max {T : Type} :
    ∀ (l : List (RegEntry T)), regSorted l → l ≠ [] →
    ∃ m, l.getLast? = some m ∧ m ∈ l ∧
      ∀ e' ∈ l, e' = m ∨ regEntryLt e' m = true := by
  intro l
  induction l with
  | nil => intro _ hne; exact absurd rfl hne
  | cons x xs ih =>
    intro hs _
    simp only [regSorted, List.pairwise_cons] at hs
    obtain ⟨hx, hxs⟩ := hs
    cases xs with
    | nil =>
      refine ⟨x, rfl, List.mem_cons_self _ _, ?_⟩
      intro e' he'
      cases List.mem_cons.1 he' with
      | inl hh => exact Or.inl hh
      | inr hh => cases hh
    | cons y ys =>
      obtain ⟨m, hm1, hm2, hm3⟩ := ih hxs (by simp)
      refine ⟨m, ?_, List.mem_cons_of_mem _ hm2, ?_⟩
      · rw [List.getLast?_cons_cons]
        exact hm1
      · intro e' he'
        cases List.mem_cons.1 he' with
        | inl hh => exact Or.inr (by rw [hh]; exact hx m hm2)
        | inr hh => exact hm3 e' hh

theorem applySets_sorted {T : Type} (ops : List (OperationId × Nat × T)) :
    regSorted (applySets ops).entries := by
  unfold applySets
  have hgen : ∀ (r : Register T), regSorted r.entries →
      regSorted (ops.foldl (fun r op => r.set op.1 op.2.1 op.2.2) r).entries := by
    induction ops with
    | nil => intro r hr; exact hr
    | cons op rest ih =>
      intro r hr
      exact ih _ (btreeInsert_sorted _ hr)
  exact hgen ⟨[]⟩ (by simp [regSorted])

/-- C10. A register built by any sequence of `set` operations resolves to
the value of the entry that is greatest under the "compare lamport
timestamps, break ties by the replica id of the operation id" ordering,
and to none exactly when no entry is present: greatest-lamport-wins with
replica-id tie-break. -/
theorem register_value_greatest_entry {T : Type}
    (ops : List (OperationId × Nat × T)) :
    ((applySets ops).entries = [] → (applySets ops).value = none) ∧
    ((applySets ops).entries ≠ [] →
      ∃ m ∈ (applySets ops).entries,
        (applySets ops).value = some m.value ∧
        ∀ e' ∈ (applySets ops).entries,
          e' = m ∨ regEntryLt e' m = true) := by
  constructor
  · intro he
    unfold Register.value
    rw [he]
    rfl
  · intro hne
    obtain ⟨m, hm1, hm2, hm3⟩ :=
      regSorted_getLast_max (applySets ops).entries (applySets_sorted ops) hne
    refine ⟨m, hm2, ?_, hm3⟩
    unfold Register.value
    rw [hm1]
    rfl

/-- Witness for C10: three sets, two sharing the greatest lamport
timestamp; the replica-id tie-break selects the entry of replica 2. -/
theorem register_value_greatest_entry_witness :
    (applySets [(⟨⟨0, 0⟩, 0, 1⟩, 3, (10 : Nat)),
        (⟨⟨0, 0⟩, 2, 2⟩, 5, 20), (⟨⟨0, 0⟩, 1, 3⟩, 5, 30)]).entries ≠ [] ∧
    ∃ m ∈ (applySets [(⟨⟨0, 0⟩, 0, 1⟩, 3, (10 : Nat)),
        (⟨⟨0, 0⟩, 2, 2⟩, 5, 20), (⟨⟨0, 0⟩, 1, 3⟩, 5, 30)]).entries,
      (applySets [(⟨⟨0, 0⟩, 0, 1⟩, 3, (10 : Nat)),
        (⟨⟨0, 0⟩, 2, 2⟩, 5, 20), (⟨⟨0, 0⟩, 1, 3⟩, 5, 30)]).value = some m.value ∧
      ∀ e' ∈ (applySets [(⟨⟨0, 0⟩, 0, 1⟩, 3, (10 : Nat)),
        (⟨⟨0, 0⟩, 2, 2⟩, 5, 20), (⟨⟨0, 0⟩, 1, 3⟩, 5, 30)]).entries,
        e' = m ∨ regEntryLt e' m = true :=
  ⟨by decide,
    (register_value_greatest_entry [(⟨⟨0, 0⟩, 0, 1⟩, 3, (10 : Nat)),
        (⟨⟨0, 0⟩, 2, 2⟩, 5, 20), (⟨⟨0, 0⟩, 1, 3⟩, 5, 30)]).2 (by decide)⟩

end XrayCore
